import Mathlib

/-!
# sertest: message verification, relay queue and receive framing

A shallow embedding of `sertest.c` (Serial Link Test Program).

* Bytes (`unsigned char`) are natural numbers; every byte store is reduced `% 256`.
* `unsigned int` counters are reduced `% 2 ^ 32`, `unsigned long long` ones `% 2 ^ 64`.
* `struct msg *` is an address (`Nat`), `NULL` is `none`; the heap maps addresses to messages.
* Paths that leave the sequential model (a failed `assert`, a `pthread_cond_timedwait`,
  `exit(-1)`) are returned as an error of type `Stop`.
* The pseudo-random generator of libbrahe and the results of `read`/`write` are inputs.
-/

namespace Sertest

/-! ## Constants -/

def MAX_MAX_MSG_LEN : Nat := 4096

def MAX_LIST_SIZE : Nat := 64

/-! ## Data model -/

/-- The `struct msg` of the source: time stamp, queue link, length and payload bytes. -/
structure msg where
  stamp : Nat
  next : Option Nat
  len : Nat
  buf : List Nat
deriving DecidableEq

/-- The way a call leaves the sequential model. -/
inductive Stop where
  | assert_failed
  | wait_full
  | wait_empty
  | read_error
  | read_blocked
  | write_error
  | short_write
  | data_mismatch
  | no_message
deriving DecidableEq

/-- The variables `msg_verify` keeps between calls: its `static int first` and the
global `numslaves`. -/
structure verify_state where
  first : Bool
  numslaves : Nat
deriving DecidableEq

/-! ## Generator/verifier -/

/-- The libc `memcmp(a, b, n)`: zero when the first `n` bytes agree, otherwise the difference
of the first pair that differs. A read past the modelled bytes is reported as a difference. -/
def memcmp : List Nat → List Nat → Nat → Int
  | _, _, 0 => 0
  | x :: xs, y :: ys, n + 1 => if x = y then memcmp xs ys n else (x : Int) - (y : Int)
  | _, _, _ + 1 => 1

/-- The loop `for (i = 0; i < len; i++) buf[i] += k;` on `unsigned char` cells. -/
def add_bytes (k : Nat) : Nat → List Nat → List Nat
  | 0, bs => bs
  | _ + 1, [] => []
  | n + 1, b :: bs => (b + k) % 256 :: add_bytes k n bs

/-- The function `msg_verify(msg, buf)`: result, the message as the call leaves it (its payload
is bumped in place), and the updated static state. The `pr_info` line is not modelled. -/
def msg_verify (s : verify_state) (m : msg) (buf : List Nat) : Bool × msg × verify_state :=
  let numslaves :=
    if s.first then (((buf.getD 0 0 : Nat) : Int) - ((m.buf.getD 0 0 : Nat) : Int)) % 256 |>.toNat
    else s.numslaves
  let m1 : msg := if numslaves ≠ 0 then { m with buf := add_bytes numslaves m.len m.buf } else m
  (memcmp buf m1.buf m.len == 0, m1, { first := false, numslaves := numslaves })

/-- The function `msg_inc(msg)`: every payload byte `++`. -/
def msg_inc (m : msg) : msg :=
  { m with buf := add_bytes 1 m.len m.buf }

/-- The two operations of libbrahe's generator used by the program, over its state `S`:
`brahe_prng_next` and `brahe_prng_range(lo, hi)`. -/
structure prng_ops (S : Type) where
  next : S → Nat × S
  range : S → Int → Int → Int × S

/-- The fill loop of `msg_gen`: `msg->buf[i] = brahe_prng_next(&prng)`, truncated to a byte. -/
def gen_bytes {S : Type} (P : prng_ops S) : Nat → S → List Nat × S
  | 0, s => ([], s)
  | n + 1, s =>
    let r := P.next s
    let rest := gen_bytes P n r.2
    (r.1 % 256 :: rest.1, rest.2)

/-- The function `msg_gen(len)`; `now` is what `get_timestamp()` returns. -/
def msg_gen {S : Type} (P : prng_ops S) (now : Nat) (len : Int) (s : S) : msg × S :=
  let r : Int × S := if len < 0 then P.range s 1 (-len) else (len, s)
  let filled := gen_bytes P r.1.toNat r.2
  ({ stamp := now, next := none, len := r.1.toNat, buf := filled.1 }, filled.2)

/-- A run of `msg_verify` calls, threading the static state from one call to the next. -/
def verify_run (s : verify_state) : List (msg × List Nat) → verify_state
  | [] => s
  | c :: cs => verify_run (msg_verify s c.1 c.2).2.2 cs

/-! ## Relay queue -/

/-- The globals `list_head`, `list_tail` and `list_size`, together with the heap `mem` that
holds the message found at each address. -/
structure queue where
  mem : Nat → msg
  list_head : Option Nat
  list_tail : Option Nat
  list_size : Nat

/-- The state at program start: both pointers `NULL`, `list_size` zero. -/
def queue_empty (mem : Nat → msg) : queue :=
  { mem := mem, list_head := none, list_tail := none, list_size := 0 }

/-- The store `p->next = n`. -/
def set_next (mem : Nat → msg) (p : Nat) (n : Option Nat) : Nat → msg :=
  fun a => if a = p then { mem a with next := n } else mem a

/-- The function `msg_add(msg)` up to its wait path: the `assert`, the test
`list_size > MAX_LIST_SIZE` that sends the caller into `pthread_cond_timedwait`, and the
append at the tail. -/
def msg_add (q : queue) (p : Nat) : Except Stop queue :=
  if (q.mem p).next ≠ none then .error .assert_failed
  else if q.list_size > MAX_LIST_SIZE then .error .wait_full
  else
    .ok { mem := match q.list_tail with
            | some t => set_next q.mem t (some p)
            | none => q.mem
          list_head := match q.list_tail with
            | some _ => q.list_head
            | none => some p
          list_tail := some p
          list_size := (q.list_size + 1) % 2 ^ 32 }

/-- The function `msg_get()` up to its wait path: an empty list sends the caller into
`pthread_cond_timedwait`; otherwise the head is unlinked and returned. -/
def msg_get (q : queue) : Except Stop (Nat × queue) :=
  match q.list_head with
  | none => .error .wait_empty
  | some p =>
    .ok (p, { mem := set_next q.mem p none
              list_head := (q.mem p).next
              list_tail := if q.list_tail = some p then none else q.list_tail
              list_size := (q.list_size + 2 ^ 32 - 1) % 2 ^ 32 })

/-- One call on the queue. -/
inductive call where
  | add (p : Nat)
  | get
deriving DecidableEq

/-- A sequence of queue calls run one after the other; the result carries the messages
returned by the `msg_get` calls, in call order. -/
def run_calls : List call → queue → Except Stop (queue × List Nat)
  | [], q => .ok (q, [])
  | call.add p :: cs, q =>
    match msg_add q p with
    | .error e => .error e
    | .ok q1 => run_calls cs q1
  | call.get :: cs, q =>
    match msg_get q with
    | .error e => .error e
    | .ok r =>
      match run_calls cs r.2 with
      | .error e => .error e
      | .ok r2 => .ok (r2.1, r.1 :: r2.2)

/-- The messages passed to `msg_add` by a sequence of calls, in call order. -/
def added : List call → List Nat
  | [] => []
  | call.add p :: cs => p :: added cs
  | call.get :: cs => added cs

/-- The number of `msg_get` calls in a sequence of calls. -/
def gets : List call → Nat
  | [] => 0
  | call.add _ :: cs => gets cs
  | call.get :: cs => gets cs + 1

/-- The calls a single-owner client can make when the queue holds `content`: `msg_add` is given
a message that is not in the queue and does not find more than MAX_LIST_SIZE messages
queued, `msg_get` finds the queue non-empty. -/
def calls_ok : List call → List Nat → Bool
  | [], _ => true
  | call.add p :: cs, content =>
    !content.contains p && decide (content.length ≤ MAX_LIST_SIZE) && calls_ok cs (content ++ [p])
  | call.get :: _, [] => false
  | call.get :: cs, _ :: content => calls_ok cs content

/-- The messages reached from a pointer by following `next` until `NULL` are exactly `l`. -/
def linked (mem : Nat → msg) : Option Nat → List Nat → Prop
  | none, [] => True
  | some a, b :: l => a = b ∧ linked mem (mem a).next l
  | _, _ => False

/-- The structural invariant of the queue: `list_size` is the number of messages linked from
`list_head`, `list_tail` is the last of them, and both pointers are `NULL` exactly when
`list_size` is 0. -/
def queue_inv (q : queue) : Prop :=
  (∃ l, linked q.mem q.list_head l ∧ q.list_size = l.length ∧ q.list_tail = l.getLast?) ∧
  ((q.list_head = none ∧ q.list_tail = none) ↔ q.list_size = 0)

/-- The states reached from an empty queue by `msg_add` calls that return (so the message has
a null `next` link and the call does not wait) on a message other than the current tail, and
by `msg_get` calls that return (so the queue is not empty). -/
inductive reachable : queue → Prop
  | init (mem : Nat → msg) : reachable (queue_empty mem)
  | add {q q1 : queue} {p : Nat} :
      reachable q → q.list_tail ≠ some p → msg_add q p = .ok q1 → reachable q1
  | get {q q1 : queue} {p : Nat} :
      reachable q → msg_get q = .ok (p, q1) → reachable q1

/-- The list `l` is the content of the queue `q`: linked from the head without repetition,
counted by `list_size`, ended by `list_tail`, and of at most MAX_LIST_SIZE + 1 messages. -/
def queue_holds (q : queue) (l : List Nat) : Prop :=
  linked q.mem q.list_head l ∧ l.Nodup ∧ q.list_size = l.length ∧ q.list_tail = l.getLast? ∧
    l.length ≤ MAX_LIST_SIZE + 1

/-- A heap of unqueued messages: every `next` link is null, and the message at address `a`
carries the one-byte payload `a mod 256`. -/
def heap_fresh : Nat → msg :=
  fun a => { stamp := 0, next := none, len := 1, buf := [a % 256] }

/-! ## Serial channel, transmit and receive threads -/

/-- What stands behind `read(fd, ...)`: the bytes not yet delivered, in order, and for each
coming call of `read` the number of bytes the kernel is ready to hand over (a negative number:
the call fails). -/
structure channel where
  stream : List Nat
  results : List Int

/-- The variables of the receive thread that live across iterations: `avail`, the static
staging buffer `buf`, the counter `rx_bytes`, and the variables of `msg_verify`. -/
structure rx_state where
  avail : Nat
  buf : List Nat
  rx_bytes : Nat
  vs : verify_state

/-- Writing `data` into a buffer from offset `off` on. -/
def store (buf : List Nat) (off : Nat) (data : List Nat) : List Nat :=
  buf.take off ++ data ++ buf.drop (off + data.length)

/-- The argument `-opt_msglen` of `msg_gen`: negation in `uint32_t`, then conversion to `int`. -/
def neg_msglen (opt_msglen : Nat) : Int :=
  let u : Nat := (2 ^ 32 - opt_msglen % 2 ^ 32) % 2 ^ 32
  if u < 2 ^ 31 then (u : Int) else (u : Int) - 2 ^ 32

/-- The loop `while (avail < msg->len) { res = read(fd, buf + avail, sizeof(buf) - avail); ... }`
of `receive_start`. A call of `read` returns at most the count asked for and at most what is
left in the stream; when no further call is scheduled the thread stays blocked. -/
def read_loop (len : Nat) : List Int → List Nat → rx_state → Except Stop (rx_state × channel)
  | [], stream, st =>
    if st.avail < len then .error .read_blocked
    else .ok (st, { stream := stream, results := [] })
  | r :: rs, stream, st =>
    if st.avail < len then
      if r < 0 then .error .read_error
      else
        let count := (MAX_MAX_MSG_LEN + 2 ^ 64 - st.avail) % 2 ^ 64
        let res := min (min r.toNat count) stream.length
        read_loop len rs (stream.drop res)
          { st with
            avail := (st.avail + res) % 2 ^ 32
            buf := store st.buf st.avail (stream.take res)
            rx_bytes := (st.rx_bytes + res) % 2 ^ 64 }
    else .ok (st, { stream := stream, results := r :: rs })

/-- One iteration of the loop of `receive_start` for the expected message `m` (line 495 of
the source, which obtains it, is the caller's): read, verify, drop the message's bytes from the
staging buffer, and either hand the incremented message to `msg_add` (returned as `some`) or
free it (`none`). -/
def receive_iter (opt_master opt_chain : Bool) (m : msg) (st : rx_state) (ch : channel) :
    Except Stop (rx_state × channel × Option msg) :=
  match read_loop m.len ch.results ch.stream st with
  | .error e => .error e
  | .ok r =>
    let v := msg_verify r.1.vs m r.1.buf
    if !v.1 then .error .data_mismatch
    else
      let avail := (r.1.avail + 2 ^ 32 - m.len) % 2 ^ 32
      let buf := if avail > 0 then store r.1.buf 0 ((r.1.buf.drop m.len).take avail) else r.1.buf
      let st2 : rx_state := { avail := avail, buf := buf, rx_bytes := r.1.rx_bytes, vs := v.2.2 }
      if !opt_master && opt_chain then .ok (st2, r.2, some (msg_inc v.2.1))
      else .ok (st2, r.2, none)

/-- The first `n` iterations of `while (1)` in `receive_start`. The expected message comes from
`next_msg`, which stands for `opt_master ? msg_get() : msg_gen(-opt_msglen)`; the result lists
the messages handed to `msg_add`, in order. -/
def receive_start {σ : Type} (opt_master opt_chain : Bool)
    (next_msg : σ → Except Stop (msg × σ)) :
    Nat → σ → rx_state → channel → Except Stop (σ × rx_state × channel × List msg)
  | 0, src, st, ch => .ok (src, st, ch, [])
  | n + 1, src, st, ch =>
    match next_msg src with
    | .error e => .error e
    | .ok g =>
      match receive_iter opt_master opt_chain g.1 st ch with
      | .error e => .error e
      | .ok r =>
        match receive_start opt_master opt_chain next_msg n g.2 r.1 r.2.1 with
        | .error e => .error e
        | .ok r2 => .ok (r2.1, r2.2.1, r2.2.2.1, r.2.2.toList ++ r2.2.2.2)

/-- The expected messages of a slave: `msg_gen(-opt_msglen)` on the process's generator. -/
def gen_source {S : Type} (P : prng_ops S) (now : Nat) (opt_msglen : Nat) (s : S) :
    Except Stop (msg × S) :=
  .ok (msg_gen P now (neg_msglen opt_msglen) s)

/-- The expected messages taken from a given sequence, one per iteration. -/
def list_source : List msg → Except Stop (msg × List msg)
  | [] => .error .no_message
  | m :: ms => .ok (m, ms)

/-- One iteration of the loop of `transmit_start` for the message `m` (obtained by the caller
as `opt_master ? msg_gen(-opt_msglen) : msg_get()`); `res` is what `write` returns. The result
is the bytes put on the wire, the new `tx_bytes`, and the message handed to `msg_add`, if any. -/
def transmit_iter (opt_master opt_chain : Bool) (m : msg) (res : Int) (tx_bytes : Nat) :
    Except Stop (List Nat × Nat × Option msg) :=
  if res < 0 then .error .write_error
  else if res < (m.len : Int) then .error .short_write
  else
    .ok (m.buf.take (min res.toNat m.len), (tx_bytes + res.toNat) % 2 ^ 64,
      if opt_master && opt_chain then some m else none)

/-- The receiver of the specification: message number k of the sequence is verified against
the bytes `[pos, pos + len)` of the stream, where `pos` is the sum of the lengths of the
messages before it; the result is the verifier state, the final position and the messages a
relaying slave forwards. -/
def verify_frames (opt_master opt_chain : Bool) (stream : List Nat) :
    List msg → verify_state → Nat → Except Stop (verify_state × Nat × List msg)
  | [], vs, pos => .ok (vs, pos, [])
  | m :: ms, vs, pos =>
    let v := msg_verify vs m ((stream.drop pos).take m.len)
    if !v.1 then .error .data_mismatch
    else
      match verify_frames opt_master opt_chain stream ms v.2.2 (pos + m.len) with
      | .error e => .error e
      | .ok r =>
        .ok (r.1, r.2.1, (if !opt_master && opt_chain then [msg_inc v.2.1] else []) ++ r.2.2)

/-- A linear congruential stand-in for libbrahe's generator, to run the model on concrete
inputs: `next` returns the state, `range` a value between `lo` and `hi`. -/
def lcg_prng : prng_ops Nat :=
  { next := fun s => (s, (1103515245 * s + 12345) % 2 ^ 32)
    range := fun s lo hi => (lo + ((s : Int) % (hi - lo + 1)), (1103515245 * s + 12345) % 2 ^ 32) }

/-- The receive thread's variables at program start, with a zeroed staging buffer. -/
def rx_init : rx_state :=
  { avail := 0, buf := List.replicate MAX_MAX_MSG_LEN 0, rx_bytes := 0,
    vs := { first := true, numslaves := 0 } }

/-! ## Facts about the byte loops -/

theorem memcmp_eq_zero_iff (n : Nat) : ∀ a b : List Nat,
    memcmp a b n = 0 ↔
      n ≤ a.length ∧ n ≤ b.length ∧ ∀ i, i < n → a.getD i 0 = b.getD i 0 := by
  induction n with
  | zero => intro a b; simp [memcmp]
  | succ n ih =>
    intro a b
    cases a with
    | nil => simp [memcmp]
    | cons x xs =>
      cases b with
      | nil => simp [memcmp]
      | cons y ys =>
        by_cases hxy : x = y
        · subst hxy
          simp only [memcmp, if_true, ih, List.length_cons, Nat.add_le_add_iff_right]
          constructor
          · rintro ⟨h1, h2, h3⟩
            refine ⟨h1, h2, ?_⟩
            intro i hi
            cases i with
            | zero => simp
            | succ j => simpa using h3 j (by omega)
          · rintro ⟨h1, h2, h3⟩
            refine ⟨h1, h2, ?_⟩
            intro i hi
            simpa using h3 (i + 1) (by omega)
        · simp only [memcmp, if_neg hxy]
          constructor
          · intro h
            exact absurd (by omega : x = y) hxy
          · rintro ⟨_, _, h3⟩
            exact absurd (by simpa using h3 0 (by omega)) hxy

theorem add_bytes_length (k : Nat) : ∀ (n : Nat) (bs : List Nat),
    (add_bytes k n bs).length = bs.length := by
  intro n
  induction n with
  | zero => intro bs; simp [add_bytes]
  | succ n ih =>
    intro bs
    cases bs with
    | nil => simp [add_bytes]
    | cons b bs => simp [add_bytes, ih]

theorem add_bytes_getD (k : Nat) : ∀ (n : Nat) (bs : List Nat) (i : Nat),
    i < n → i < bs.length → (add_bytes k n bs).getD i 0 = (bs.getD i 0 + k) % 256 := by
  intro n
  induction n with
  | zero => intro bs i hi; omega
  | succ n ih =>
    intro bs i hi hl
    cases bs with
    | nil => simp at hl
    | cons b bs =>
      cases i with
      | zero => simp [add_bytes]
      | succ j =>
        simp only [add_bytes, List.getD_cons_succ]
        exact ih bs j (by omega) (by simpa using hl)

theorem add_bytes_eq_map (k : Nat) : ∀ (n : Nat) (bs : List Nat),
    bs.length ≤ n → add_bytes k n bs = bs.map (fun b => (b + k) % 256) := by
  intro n
  induction n with
  | zero => intro bs h; simp at h; subst h; simp [add_bytes]
  | succ n ih =>
    intro bs h
    cases bs with
    | nil => simp [add_bytes]
    | cons b bs =>
      simp only [add_bytes, List.map_cons]
      rw [ih bs (by simpa using h)]

/-! ## The verifier -/

theorem getElem?_eq_some_getD {l : List Nat} {i : Nat} (h : i < l.length) :
    l[i]? = some (l.getD i 0) := by
  simp [List.getD_eq_getElem?_getD, List.getElem?_eq_getElem h]

theorem msg_verify_later (s : verify_state) (hs : s.first = false) (m : msg) (buf : List Nat) :
    (msg_verify s m buf).2.2 = s := by
  cases s with
  | mk f k =>
    simp only at hs
    subst hs
    simp [msg_verify]

theorem verify_run_later (cs : List (msg × List Nat)) :
    ∀ s : verify_state, s.first = false → verify_run s cs = s := by
  induction cs with
  | nil => intro s _; rfl
  | cons c cs ih =>
    intro s hs
    simp only [verify_run]
    rw [msg_verify_later s hs]
    exact ih s hs

theorem msg_inc_iter_len (m : msg) (N : Nat) : (msg_inc^[N] m).len = m.len := by
  induction N with
  | zero => rfl
  | succ n ih => rw [Function.iterate_succ_apply']; simpa [msg_inc] using ih

theorem msg_inc_iter_buf (m : msg) (hbuf : m.buf.length = m.len) (N : Nat) :
    (msg_inc^[N] m).buf = m.buf.map (fun b => if N = 0 then b else (b + N) % 256) := by
  induction N with
  | zero => simp
  | succ n ih =>
    rw [Function.iterate_succ_apply']
    simp only [msg_inc, msg_inc_iter_len]
    rw [add_bytes_eq_map _ _ _ (by rw [ih]; simp [hbuf]), ih, List.map_map]
    apply List.map_congr_left
    intro b _
    have hn : n + 1 ≠ 0 := by omega
    simp only [Function.comp, hn, if_false]
    split <;> omega

/-- C1: with the chain offset calibrated to 0 (first-verification flag cleared, numslaves = 0),
`msg_verify(M, buf)` returns true when `buf` holds M's payload (whatever follows it in the
buffer), and returns false for every `buf` that differs from the payload in exactly one byte
position `i` among the first `M.len`. -/
theorem msg_verify_offset_zero (m : msg) (hbuf : m.buf.length = m.len) :
    (∀ rest : List Nat, (msg_verify ⟨false, 0⟩ m (m.buf ++ rest)).1 = true) ∧
    (∀ (buf : List Nat) (i : Nat), i < m.len → buf[i]? ≠ m.buf[i]? →
        (∀ j, j < m.len → j ≠ i → buf[j]? = m.buf[j]?) →
        (msg_verify ⟨false, 0⟩ m buf).1 = false) := by
  constructor
  · intro rest
    simp only [msg_verify, if_false, ne_eq, not_true, Bool.false_eq_true, beq_iff_eq]
    rw [memcmp_eq_zero_iff]
    refine ⟨by simp; omega, by omega, ?_⟩
    intro i hi
    simp [List.getD_eq_getElem?_getD, List.getElem?_append_left (hbuf ▸ hi)]
  · intro buf i hi hne _
    by_contra hv
    simp only [msg_verify, if_false, ne_eq, not_true, Bool.false_eq_true, Bool.not_eq_false,
      beq_iff_eq] at hv
    rw [memcmp_eq_zero_iff] at hv
    obtain ⟨h1, h2, h3⟩ := hv
    apply hne
    rw [getElem?_eq_some_getD (by omega), getElem?_eq_some_getD (by omega), h3 i hi]

theorem msg_verify_offset_zero_witness :
    (∀ rest : List Nat,
        (msg_verify ⟨false, 0⟩ ⟨0, none, 3, [7, 8, 9]⟩ ([7, 8, 9] ++ rest)).1 = true) ∧
    (∀ (buf : List Nat) (i : Nat), i < 3 → buf[i]? ≠ [7, 8, 9][i]? →
        (∀ j, j < 3 → j ≠ i → buf[j]? = [7, 8, 9][j]?) →
        (msg_verify ⟨false, 0⟩ ⟨0, none, 3, [7, 8, 9]⟩ buf).1 = false) :=
  msg_verify_offset_zero ⟨0, none, 3, [7, 8, 9]⟩ rfl

/-- C2: for a message M of length at least 1 and N, k in 0..255, if `buf` is M's payload after
N applications of `msg_inc` and the calibrated offset `numslaves` is k (first-verification
flag cleared), then `msg_verify(M, buf)` returns true exactly when k = N. -/
theorem msg_verify_relay_depth (m : msg) (hlen : 1 ≤ m.len) (hbuf : m.buf.length = m.len)
    (N k : Nat) (hN : N < 256) (hk : k < 256) :
    (msg_verify ⟨false, k⟩ m (msg_inc^[N] m).buf).1 = decide (k = N) := by
  have hcore : ∀ b : Nat,
      ((if N = 0 then b else (b + N) % 256) = (if k = 0 then b else (b + k) % 256)) ↔ k = N := by
    intro b
    split <;> split <;> omega
  have hexp : (if k ≠ 0 then { m with buf := add_bytes k m.len m.buf } else m).buf
      = m.buf.map (fun b => if k = 0 then b else (b + k) % 256) := by
    by_cases hk0 : k = 0
    · simp [hk0]
    · simp only [ne_eq, hk0, not_false_eq_true, if_true, if_false]
      rw [add_bytes_eq_map _ _ _ (by omega)]
  simp only [msg_verify, if_false, Bool.false_eq_true]
  rw [hexp, msg_inc_iter_buf m hbuf N]
  by_cases hkN : k = N
  · subst hkN
    simp only [decide_True, beq_iff_eq]
    rw [memcmp_eq_zero_iff]
    simp [hbuf]
  · simp only [hkN, decide_False, beq_eq_false_iff_ne, ne_eq]
    rw [memcmp_eq_zero_iff]
    rintro ⟨_, _, h3⟩
    have h0 := h3 0 (by omega)
    cases hb : m.buf with
    | nil => rw [hb] at hbuf; simp at hbuf; omega
    | cons b bs =>
      rw [hb] at h0
      simp only [List.map_cons, List.getD_cons_zero] at h0
      exact hkN ((hcore b).1 h0)

theorem msg_verify_relay_depth_witness :
    (msg_verify ⟨false, 3⟩ ⟨0, none, 2, [254, 17]⟩
        (msg_inc^[3] ⟨0, none, 2, [254, 17]⟩).buf).1 = decide (3 = 3) ∧
    (msg_verify ⟨false, 0⟩ ⟨0, none, 2, [254, 17]⟩
        (msg_inc^[3] ⟨0, none, 2, [254, 17]⟩).buf).1 = decide (0 = 3) :=
  ⟨msg_verify_relay_depth ⟨0, none, 2, [254, 17]⟩ (by decide) rfl 3 3 (by decide) (by decide),
   msg_verify_relay_depth ⟨0, none, 2, [254, 17]⟩ (by decide) rfl 3 0 (by decide) (by decide)⟩

/-- C10: on the first verification of a run, `msg_verify(M, buf)` returns true if and only if
every received byte differs from the expected byte by the same amount mod 256 as byte 0 does;
so for a 1-byte message the first verification succeeds for every received byte value. -/
theorem first_verify_constant_offset (n0 : Nat) (m : msg) (buf : List Nat)
    (hbuf : m.buf.length = m.len) (hlen : m.len ≤ buf.length)
    (hb : ∀ i, buf.getD i 0 < 256) (hm : ∀ i, m.buf.getD i 0 < 256) :
    ((msg_verify ⟨true, n0⟩ m buf).1 = true ↔
      ∀ i, i < m.len →
        (((buf.getD i 0 : Nat) : Int) - ((m.buf.getD i 0 : Nat) : Int)) % 256
          = (((buf.getD 0 0 : Nat) : Int) - ((m.buf.getD 0 0 : Nat) : Int)) % 256) ∧
    (m.len = 1 → (msg_verify ⟨true, n0⟩ m buf).1 = true) := by
  have key : (msg_verify ⟨true, n0⟩ m buf).1 = true ↔
      ∀ i, i < m.len →
        (((buf.getD i 0 : Nat) : Int) - ((m.buf.getD i 0 : Nat) : Int)) % 256
          = (((buf.getD 0 0 : Nat) : Int) - ((m.buf.getD 0 0 : Nat) : Int)) % 256 := by
    simp only [msg_verify, if_true, beq_iff_eq]
    rw [memcmp_eq_zero_iff]
    generalize hd : ((((buf.getD 0 0 : Nat) : Int) - ((m.buf.getD 0 0 : Nat) : Int)) % 256).toNat = d
    have hb0 := hb 0
    have hm0 := hm 0
    by_cases hd0 : d = 0
    · simp only [hd0, ne_eq, not_true, if_false]
      constructor
      · rintro ⟨_, _, h3⟩ i hi
        have := h3 i hi
        omega
      · intro h
        refine ⟨hlen, by omega, ?_⟩
        intro i hi
        have := h i hi
        have := hb i
        have := hm i
        omega
    · simp only [ne_eq, hd0, not_false_eq_true, if_true]
      constructor
      · rintro ⟨_, _, h3⟩ i hi
        have := h3 i hi
        rw [add_bytes_getD _ _ _ _ hi (by omega)] at this
        have := hm i
        omega
      · intro h
        refine ⟨hlen, by rw [add_bytes_length]; omega, ?_⟩
        intro i hi
        rw [add_bytes_getD _ _ _ _ hi (by omega)]
        have := h i hi
        have := hb i
        have := hm i
        omega
  refine ⟨key, ?_⟩
  intro h1
  rw [key]
  intro i hi
  have : i = 0 := by omega
  subst this
  rfl

theorem first_verify_constant_offset_witness :
    ((msg_verify ⟨true, 0⟩ ⟨0, none, 1, [10]⟩ [99]).1 = true ↔
      ∀ i, i < 1 →
        (((([99] : List Nat).getD i 0 : Nat) : Int) - ((([10] : List Nat).getD i 0 : Nat) : Int)) % 256
          = (((([99] : List Nat).getD 0 0 : Nat) : Int)
              - ((([10] : List Nat).getD 0 0 : Nat) : Int)) % 256) ∧
    ((1 : Nat) = 1 → (msg_verify ⟨true, 0⟩ ⟨0, none, 1, [10]⟩ [99]).1 = true) :=
  first_verify_constant_offset 0 ⟨0, none, 1, [10]⟩ [99] rfl (by decide)
    (by intro i; rcases i with _ | i <;> simp)
    (by intro i; rcases i with _ | i <;> simp)
/-! ## The relay queue -/

theorem linked_nil_iff (mem : Nat → msg) (h : Option Nat) : linked mem h [] ↔ h = none := by
  cases h <;> simp [linked]

theorem linked_cons_iff (mem : Nat → msg) (h : Option Nat) (a : Nat) (l : List Nat) :
    linked mem h (a :: l) ↔ h = some a ∧ linked mem (mem a).next l := by
  cases h with
  | none => simp [linked]
  | some b =>
    simp only [linked, Option.some.injEq]
    constructor
    · rintro ⟨rfl, h2⟩; exact ⟨rfl, h2⟩
    · rintro ⟨rfl, h2⟩; exact ⟨rfl, h2⟩

theorem linked_set_next (mem : Nat → msg) (p : Nat) (n : Option Nat) :
    ∀ (l : List Nat) (h : Option Nat), p ∉ l → linked mem h l → linked (set_next mem p n) h l := by
  intro l
  induction l with
  | nil => intro h _ hl; rw [linked_nil_iff] at *; exact hl
  | cons a l ih =>
    intro h hp hl
    rw [linked_cons_iff] at *
    obtain ⟨h1, h2⟩ := hl
    have hap : a ≠ p := fun e => hp (by simp [e])
    refine ⟨h1, ?_⟩
    have : (set_next mem p n a).next = (mem a).next := by simp [set_next, hap]
    rw [this]
    exact ih _ (fun hm => hp (List.mem_cons_of_mem _ hm)) h2

theorem linked_append (mem : Nat → msg) (p : Nat) (hp : (mem p).next = none) :
    ∀ (l : List Nat) (h : Option Nat) (t : Nat), linked mem h l → l.Nodup → p ∉ l →
      l.getLast? = some t → linked (set_next mem t (some p)) h (l ++ [p]) := by
  intro l
  induction l with
  | nil => intro h t _ _ _ ht; simp at ht
  | cons a l ih =>
    intro h t hl hnd hpl ht
    rw [linked_cons_iff] at hl
    obtain ⟨h1, h2⟩ := hl
    have hpa : p ≠ a := fun e => hpl (by simp [e])
    rw [List.cons_append, linked_cons_iff]
    refine ⟨h1, ?_⟩
    cases l with
    | nil =>
      simp only [List.getLast?_singleton, Option.some.injEq] at ht
      subst ht
      simp only [List.nil_append, linked_cons_iff, linked_nil_iff]
      simp [set_next, hpa, hp]
    | cons b l =>
      have htl : (b :: l).getLast? = some t := by simpa [List.getLast?_cons_cons] using ht
      have hat : a ≠ t := by
        intro e
        have : t ∈ b :: l := List.mem_of_getLast?_eq_some htl
        rw [← e] at this
        exact (List.nodup_cons.1 hnd).1 this
      have : (set_next mem t (some p) a).next = (mem a).next := by simp [set_next, hat]
      rw [this]
      exact ih _ t h2 (List.nodup_cons.1 hnd).2 (fun hm => hpl (List.mem_cons_of_mem _ hm)) htl

theorem linked_last_of_next_none (mem : Nat → msg) :
    ∀ (l : List Nat) (h : Option Nat) (a : Nat), linked mem h l → a ∈ l →
      (mem a).next = none → l.getLast? = some a := by
  intro l
  induction l with
  | nil => intro h a _ ha; simp at ha
  | cons b l ih =>
    intro h a hl ha hn
    rw [linked_cons_iff] at hl
    obtain ⟨_, h2⟩ := hl
    cases l with
    | nil => simp at ha; simp [ha]
    | cons c l =>
      rw [List.getLast?_cons_cons]
      rcases List.mem_cons.1 ha with rfl | ha'
      · rw [hn, linked_cons_iff] at h2
        simp at h2
      · exact ih _ a h2 ha' hn

theorem queue_holds_empty (mem : Nat → msg) : queue_holds (queue_empty mem) [] := by
  simp [queue_holds, queue_empty, linked]

theorem msg_add_step (q : queue) (l : List Nat) (p : Nat) (hq : queue_holds q l)
    (hp : p ∉ l) (hn : (q.mem p).next = none) (hl : l.length ≤ MAX_LIST_SIZE) :
    ∃ q1, msg_add q p = .ok q1 ∧ queue_holds q1 (l ++ [p]) ∧
      (∀ a, (q1.mem a).buf = (q.mem a).buf ∧ (q1.mem a).len = (q.mem a).len ∧
        (q1.mem a).stamp = (q.mem a).stamp) ∧
      (∀ a, a ∉ l → (q1.mem a).next = (q.mem a).next) := by
  obtain ⟨h1, h2, h3, h4, _⟩ := hq
  have hsz : ¬ q.list_size > MAX_LIST_SIZE := by omega
  simp only [MAX_LIST_SIZE] at hl hsz
  refine ⟨_, by simp only [msg_add, hn, ne_eq, not_true, if_false, hsz, MAX_LIST_SIZE]; rfl, ?_, ?_, ?_⟩
  · refine ⟨?_, ?_, ?_, ?_, ?_⟩
    · cases l with
      | nil =>
        simp only [List.getLast?_nil] at h4
        simp [h4, linked_cons_iff, linked_nil_iff, hn]
      | cons a l' =>
        obtain ⟨t, ht⟩ : ∃ t, (a :: l').getLast? = some t :=
          ⟨(a :: l').getLast (by simp), List.getLast?_eq_getLast _ _⟩
        simp only [h4, ht]
        exact linked_append q.mem p hn _ _ t h1 h2 hp ht
    · rw [List.nodup_append]
      refine ⟨h2, by simp, ?_⟩
      intro a ha hap
      simp at hap
      exact hp (hap ▸ ha)
    · simp only [List.length_append, List.length_singleton, h3]
      omega
    · simp
    · simp only [List.length_append, List.length_singleton, MAX_LIST_SIZE]
      omega
  · intro a
    cases ht : q.list_tail with
    | none => simp
    | some t =>
      simp only [set_next]
      split <;> simp_all
  · intro a ha
    cases ht : q.list_tail with
    | none => simp
    | some t =>
      have hta : a ≠ t := by
        intro e
        rw [ht] at h4
        exact ha (e ▸ List.mem_of_getLast?_eq_some h4.symm)
      simp [set_next, hta]

theorem msg_get_step (q : queue) (a : Nat) (l : List Nat) (hq : queue_holds q (a :: l)) :
    ∃ q1, msg_get q = .ok (a, q1) ∧ queue_holds q1 l ∧ (q1.mem a).next = none ∧
      (∀ b, (q1.mem b).buf = (q.mem b).buf ∧ (q1.mem b).len = (q.mem b).len ∧
        (q1.mem b).stamp = (q.mem b).stamp) ∧
      (∀ b, b ≠ a → (q1.mem b).next = (q.mem b).next) := by
  obtain ⟨h1, h2, h3, h4, h5⟩ := hq
  rw [linked_cons_iff] at h1
  obtain ⟨hh, hl⟩ := h1
  have hal : a ∉ l := (List.nodup_cons.1 h2).1
  refine ⟨_, by simp only [msg_get, hh]; rfl, ?_, by simp [set_next], ?_, ?_⟩
  · refine ⟨linked_set_next _ _ _ _ _ hal hl, (List.nodup_cons.1 h2).2, ?_, ?_, ?_⟩
    · simp only [h3, List.length_cons]
      simp only [List.length_cons, MAX_LIST_SIZE] at h5
      omega
    · cases l with
      | nil => simp [h4]
      | cons b l' =>
        have hne : (a :: b :: l').getLast? ≠ some a := by
          intro e
          rw [List.getLast?_cons_cons] at e
          exact hal (List.mem_of_getLast?_eq_some e)
        simp only [h4, hne, if_false]
        rw [List.getLast?_cons_cons]
    · simp only [List.length_cons] at h5
      omega
  · intro b
    simp only [set_next]
    split <;> simp_all
  · intro b hb
    simp [set_next, hb]

theorem run_calls_spec : ∀ (cs : List call) (q : queue) (l : List Nat),
    queue_holds q l → (∀ a, a ∉ l → (q.mem a).next = none) → calls_ok cs l = true →
    ∃ q1 out rest, run_calls cs q = .ok (q1, out) ∧ l ++ added cs = out ++ rest ∧
      queue_holds q1 rest ∧ out.length = gets cs ∧
      (∀ a, (q1.mem a).buf = (q.mem a).buf ∧ (q1.mem a).len = (q.mem a).len ∧
        (q1.mem a).stamp = (q.mem a).stamp) ∧
      (∀ a, a ∉ rest → (q1.mem a).next = none) := by
  intro cs
  induction cs with
  | nil =>
    intro q l hq hfree _
    exact ⟨q, [], l, rfl, by simp [added], hq, rfl, fun a => ⟨rfl, rfl, rfl⟩, hfree⟩
  | cons c cs ih =>
    intro q l hq hfree hok
    cases c with
    | add p =>
      simp only [calls_ok, Bool.and_eq_true, Bool.not_eq_true', decide_eq_true_eq] at hok
      obtain ⟨⟨hp, hlen⟩, hrest⟩ := hok
      have hp' : p ∉ l := by
        intro hm
        have : l.contains p = true := by simpa using hm
        rw [this] at hp
        exact absurd hp (by simp)
      obtain ⟨q1, hadd, hq1, hsame, hnext⟩ := msg_add_step q l p hq hp' (hfree p hp') hlen
      have hfree1 : ∀ a, a ∉ l ++ [p] → (q1.mem a).next = none := by
        intro a ha
        have hal : a ∉ l := fun hm => ha (List.mem_append_left _ hm)
        rw [hnext a hal]
        exact hfree a hal
      obtain ⟨q2, out, rest, hrun, heq, hq2, hlen2, hsame2, hfree2⟩ :=
        ih q1 (l ++ [p]) hq1 hfree1 hrest
      refine ⟨q2, out, rest, by simp only [run_calls, hadd, hrun], ?_, hq2,
        by simpa [gets] using hlen2, ?_, hfree2⟩
      · simpa [added] using heq
      · intro a
        obtain ⟨e1, e2, e3⟩ := hsame2 a
        obtain ⟨f1, f2, f3⟩ := hsame a
        exact ⟨e1.trans f1, e2.trans f2, e3.trans f3⟩
    | get =>
      cases l with
      | nil => simp [calls_ok] at hok
      | cons a l' =>
        simp only [calls_ok] at hok
        obtain ⟨q1, hget, hq1, hna, hsame, hnext⟩ := msg_get_step q a l' hq
        have hfree1 : ∀ b, b ∉ l' → (q1.mem b).next = none := by
          intro b hb
          by_cases hba : b = a
          · rw [hba]; exact hna
          · rw [hnext b hba]
            exact hfree b (by simp [hba, hb])
        obtain ⟨q2, out, rest, hrun, heq, hq2, hlen2, hsame2, hfree2⟩ := ih q1 l' hq1 hfree1 hok
        refine ⟨q2, a :: out, rest, by simp only [run_calls, hget, hrun], ?_, hq2,
          by simp [gets, hlen2], ?_, hfree2⟩
        · simp only [added, List.cons_append, heq]
        · intro b
          obtain ⟨e1, e2, e3⟩ := hsame2 b
          obtain ⟨f1, f2, f3⟩ := hsame b
          exact ⟨e1.trans f1, e2.trans f2, e3.trans f3⟩

theorem reachable_holds (q : queue) (h : reachable q) : ∃ l, queue_holds q l := by
  induction h with
  | init mem => exact ⟨[], queue_holds_empty mem⟩
  | @add q q1 p _ htail hadd ih =>
    obtain ⟨l, hl⟩ := ih
    have hn : (q.mem p).next = none := by
      by_contra hc
      simp [msg_add, hc] at hadd
    have hsz : ¬ q.list_size > MAX_LIST_SIZE := by
      intro hc
      simp [msg_add, hn, hc] at hadd
    have hp : p ∉ l := by
      intro hm
      have := linked_last_of_next_none q.mem l _ p hl.1 hm hn
      exact htail (hl.2.2.2.1.trans this)
    obtain ⟨q2, hadd2, hq2, _, _⟩ := msg_add_step q l p hl hp hn (by rw [← hl.2.2.1]; omega)
    rw [hadd] at hadd2
    cases hadd2
    exact ⟨_, hq2⟩
  | @get q q1 p _ hget ih =>
    obtain ⟨l, hl⟩ := ih
    cases l with
    | nil =>
      have := (linked_nil_iff _ _).1 hl.1
      simp [msg_get, this] at hget
    | cons a l' =>
      obtain ⟨q2, hget2, hq2, _, _, _⟩ := msg_get_step q a l' hl
      rw [hget] at hget2
      cases hget2
      exact ⟨_, hq2⟩

theorem queue_inv_of_holds (q : queue) (l : List Nat) (h : queue_holds q l) : queue_inv q := by
  obtain ⟨h1, _, h3, h4, _⟩ := h
  refine ⟨⟨l, h1, h3, h4⟩, ?_⟩
  cases l with
  | nil =>
    rw [linked_nil_iff] at h1
    simp [h1, h3, h4]
  | cons a l' =>
    rw [linked_cons_iff] at h1
    simp [h1.1, h3]

theorem not_linked_of_self_loop (mem : Nat → msg) (a : Nat) (h : (mem a).next = some a) :
    ∀ l : List Nat, ¬ linked mem (some a) l := by
  intro l
  induction l with
  | nil => simp [linked]
  | cons b l ih =>
    rw [linked_cons_iff]
    rintro ⟨hb, hl⟩
    simp only [Option.some.injEq] at hb
    subst hb
    rw [h] at hl
    exact ih hl

/-- C3: in the sequential model of the relay queue, starting from the empty queue, for every
interleaving of `msg_add` and `msg_get` calls made by a client that owns the messages it
enqueues (each message passed to `msg_add` has a null `next` link and is not in the queue at
that time) and in which neither call takes its wait path, all calls return, the k-th `msg_get`
returns the k-th message passed to `msg_add`, the messages not yet returned are exactly those
still linked from `list_head`, in order, and no payload or length has changed. -/
theorem fifo_order (mem : Nat → msg) (hmem : ∀ a, (mem a).next = none) (cs : List call)
    (hok : calls_ok cs [] = true) :
    ∃ q out rest, run_calls cs (queue_empty mem) = .ok (q, out) ∧
      out.length = gets cs ∧
      (∀ k, k < out.length → out[k]? = (added cs)[k]?) ∧
      added cs = out ++ rest ∧ linked q.mem q.list_head rest ∧
      ∀ a, (q.mem a).buf = (mem a).buf ∧ (q.mem a).len = (mem a).len := by
  obtain ⟨q, out, rest, hrun, heq, hq, hlen, hsame, _⟩ :=
    run_calls_spec cs (queue_empty mem) [] (queue_holds_empty mem) (fun a _ => hmem a) hok
  simp only [List.nil_append] at heq
  refine ⟨q, out, rest, hrun, hlen, ?_, heq, hq.1, fun a => ⟨(hsame a).1, (hsame a).2.1⟩⟩
  intro k hk
  rw [heq, List.getElem?_append_left hk]

theorem fifo_order_witness :
    ∃ q out rest,
      run_calls [call.add 1, call.add 2, call.get, call.add 3, call.get, call.get]
        (queue_empty heap_fresh) = .ok (q, out) ∧
      out.length = gets [call.add 1, call.add 2, call.get, call.add 3, call.get, call.get] ∧
      (∀ k, k < out.length → out[k]? =
        (added [call.add 1, call.add 2, call.get, call.add 3, call.get, call.get])[k]?) ∧
      added [call.add 1, call.add 2, call.get, call.add 3, call.get, call.get] = out ++ rest ∧
      linked q.mem q.list_head rest ∧
      ∀ a, (q.mem a).buf = (heap_fresh a).buf ∧ (q.mem a).len = (heap_fresh a).len :=
  fifo_order heap_fresh (fun _ => rfl)
    [call.add 1, call.add 2, call.get, call.add 3, call.get, call.get] (by decide)

/-- C4, as stated, fails: starting from the empty queue and with no `msg_get` in between,
65 = MAX_LIST_SIZE + 1 calls of `msg_add` on distinct messages all append (the 65th finds
`list_size = 64`, so `list_size > MAX_LIST_SIZE` is false), leaving
`list_size = MAX_LIST_SIZE + 1`, which exceeds MAX_LIST_SIZE; the 66th call is the first to
find its blocking condition true. -/
theorem msg_add_sixty_fifth_call_appends :
    ∃ q, run_calls ((List.range' 1 65).map call.add) (queue_empty heap_fresh) = .ok (q, []) ∧
      q.list_size = MAX_LIST_SIZE + 1 ∧ MAX_LIST_SIZE < q.list_size ∧
      msg_add q 66 = .error .wait_full := by
  have hok : calls_ok ((List.range' 1 65).map call.add) [] = true := by decide
  have hadd : added ((List.range' 1 65).map call.add) = List.range' 1 65 := by decide
  have hgets : gets ((List.range' 1 65).map call.add) = 0 := by decide
  obtain ⟨q, out, rest, hrun, heq, hq, hlen, _, hfree⟩ :=
    run_calls_spec _ (queue_empty heap_fresh) [] (queue_holds_empty heap_fresh)
      (fun a _ => rfl) hok
  rw [hgets, List.length_eq_zero] at hlen
  subst hlen
  simp only [List.nil_append, hadd] at heq
  subst heq
  obtain ⟨h1, _, h3, _, _⟩ := hq
  have hsz : q.list_size = 65 := by simpa using h3
  have hfree66 : (q.mem 66).next = none := hfree 66 (by decide)
  refine ⟨q, hrun, by simp [hsz, MAX_LIST_SIZE], by simp [hsz, MAX_LIST_SIZE], ?_⟩
  simp [msg_add, hfree66, hsz, MAX_LIST_SIZE]

theorem calls_ok_adds : ∀ (ps content : List Nat), (content ++ ps).Nodup →
    (content ++ ps).length ≤ MAX_LIST_SIZE + 1 → calls_ok (ps.map call.add) content = true := by
  intro ps
  induction ps with
  | nil => intro content _ _; rfl
  | cons p ps ih =>
    intro content hnd hlen
    have hp : p ∉ content := by
      intro hm
      have := (List.nodup_append.1 hnd).2.2 hm (List.mem_cons_self p ps)
      exact this
    have hc : content.contains p = false := by simpa using hp
    simp only [List.length_append, List.length_cons] at hlen
    have hrest := ih (content ++ [p]) (by simpa using hnd)
      (by simp only [List.length_append, List.length_singleton]; omega)
    simp only [List.map_cons, calls_ok, hc, Bool.not_false, Bool.true_and, Bool.and_eq_true,
      decide_eq_true_eq, hrest, and_true]
    omega

theorem added_adds (ps : List Nat) : added (ps.map call.add) = ps := by
  induction ps with
  | nil => rfl
  | cons p ps ih => simp [added, ih]

theorem gets_adds (ps : List Nat) : gets (ps.map call.add) = 0 := by
  induction ps with
  | nil => rfl
  | cons p ps ih => simp [gets, ih]

/-- C4 (amended): the relay queue is bounded by MAX_LIST_SIZE + 1 (65). Starting from the
empty queue and with no `msg_get` in between, MAX_LIST_SIZE + 1 calls of `msg_add` on distinct
unqueued messages all append, leaving `list_size = MAX_LIST_SIZE + 1`, and the
(MAX_LIST_SIZE + 2)-th call finds `list_size > MAX_LIST_SIZE` true and must wait instead of
appending; so `list_size` never exceeds MAX_LIST_SIZE + 1 in any reachable state. -/
theorem list_size_bound (mem : Nat → msg) (hmem : ∀ a, (mem a).next = none) (ps : List Nat)
    (hnd : ps.Nodup) (hlen : ps.length = MAX_LIST_SIZE + 1) (q2 : queue) (hreach : reachable q2) :
    (∃ q, run_calls (ps.map call.add) (queue_empty mem) = .ok (q, []) ∧
      q.list_size = MAX_LIST_SIZE + 1 ∧
      ∀ p, p ∉ ps → msg_add q p = .error .wait_full) ∧
    q2.list_size ≤ MAX_LIST_SIZE + 1 := by
  constructor
  · have hok : calls_ok (ps.map call.add) [] = true :=
      calls_ok_adds ps [] (by simpa using hnd) (by simp [hlen])
    obtain ⟨q, out, rest, hrun, heq, hq, hout, _, hfree⟩ :=
      run_calls_spec _ (queue_empty mem) [] (queue_holds_empty mem) (fun a _ => hmem a) hok
    rw [gets_adds, List.length_eq_zero] at hout
    subst hout
    simp only [List.nil_append, added_adds] at heq
    subst heq
    have hsz : q.list_size = MAX_LIST_SIZE + 1 := by rw [hq.2.2.1, hlen]
    refine ⟨q, hrun, hsz, ?_⟩
    intro p hp
    have hn := hfree p hp
    simp [msg_add, hn, hsz]
  · obtain ⟨l, hl⟩ := reachable_holds q2 hreach
    rw [hl.2.2.1]
    exact hl.2.2.2.2

theorem list_size_bound_witness :
    (∃ q, run_calls ((List.range' 100 65).map call.add) (queue_empty heap_fresh) = .ok (q, []) ∧
      q.list_size = MAX_LIST_SIZE + 1 ∧
      ∀ p, p ∉ List.range' 100 65 → msg_add q p = .error .wait_full) ∧
    (queue_empty heap_fresh).list_size ≤ MAX_LIST_SIZE + 1 :=
  list_size_bound heap_fresh (fun _ => rfl) (List.range' 100 65) (List.nodup_range' 100 65)
    (by simp [MAX_LIST_SIZE]) (queue_empty heap_fresh) (reachable.init heap_fresh)

/-- C5, as stated, fails when the current tail (whose `next` link is null) is passed to
`msg_add` again: both calls return, the message becomes its own successor and `list_size`
is 2, so no finite list of messages is linked from `list_head`. -/
theorem queue_inv_counterexample :
    ∃ q1 q2, msg_add (queue_empty heap_fresh) 1 = .ok q1 ∧ (q1.mem 1).next = none ∧
      msg_add q1 1 = .ok q2 ∧ q2.list_size = 2 ∧ (q2.mem 1).next = some 1 ∧ ¬ queue_inv q2 := by
  refine ⟨_, _, rfl, rfl, rfl, rfl, rfl, ?_⟩
  rintro ⟨⟨l, hl, _, _⟩, _⟩
  exact not_linked_of_self_loop _ 1 rfl l hl

/-- C5 (amended): in every state reached from the initial empty queue by `msg_add` on a
message whose `next` link is null and which is not the current `list_tail` (so not already
queued), and by `msg_get` on a non-empty queue, `list_size` equals the number of messages
linked from `list_head`, `list_tail` is the last of them, and `list_head` and `list_tail`
are both null exactly when `list_size` is 0. -/
theorem queue_structure (q : queue) (h : reachable q) : queue_inv q := by
  obtain ⟨l, hl⟩ := reachable_holds q h
  exact queue_inv_of_holds q l hl

theorem queue_structure_witness :
    queue_inv { mem := heap_fresh, list_head := some 1, list_tail := some 1, list_size := 1 } :=
  queue_structure _ (reachable.add (q := queue_empty heap_fresh) (p := 1)
    (reachable.init heap_fresh) (by simp [queue_empty]) rfl)

/-! ## The receive thread -/

theorem memcmp_take (n : Nat) : ∀ a b : List Nat, memcmp (a.take n) b n = memcmp a b n := by
  induction n with
  | zero => intro a b; simp [memcmp]
  | succ n ih =>
    intro a b
    cases a with
    | nil => simp
    | cons x xs =>
      cases b with
      | nil => simp [memcmp]
      | cons y ys => simp [memcmp, ih]

theorem getD_zero_take (a : List Nat) (n : Nat) (hn : 1 ≤ n) :
    (a.take n).getD 0 0 = a.getD 0 0 := by
  cases a with
  | nil => simp
  | cons x xs =>
    cases n with
    | zero => omega
    | succ k => simp

theorem msg_verify_take (s : verify_state) (m : msg) (buf : List Nat) (hlen : 1 ≤ m.len) :
    msg_verify s m (buf.take m.len) = msg_verify s m buf := by
  simp only [msg_verify, memcmp_take, getD_zero_take buf m.len hlen]

theorem memcmp_eq_zero_take (n : Nat) : ∀ a b : List Nat,
    memcmp a b n = 0 ↔ n ≤ a.length ∧ n ≤ b.length ∧ a.take n = b.take n := by
  induction n with
  | zero => intro a b; simp [memcmp]
  | succ n ih =>
    intro a b
    cases a with
    | nil => simp [memcmp]
    | cons x xs =>
      cases b with
      | nil => simp [memcmp]
      | cons y ys =>
        by_cases hxy : x = y
        · subst hxy
          simp [memcmp, ih]
        · have hne : (x : Int) - (y : Int) ≠ 0 := by omega
          simp [memcmp, hxy, hne]

theorem store_length (buf : List Nat) (off : Nat) (data : List Nat)
    (h : off + data.length ≤ buf.length) : (store buf off data).length = buf.length := by
  simp only [store, List.length_append, List.length_take, List.length_drop]
  omega

theorem store_take (buf : List Nat) (off : Nat) (data : List Nat)
    (h : off + data.length ≤ buf.length) :
    (store buf off data).take (off + data.length) = buf.take off ++ data := by
  have h1 : (buf.take off ++ data).length = off + data.length := by
    simp only [List.length_append, List.length_take]
    omega
  simp only [store]
  rw [← h1, List.take_left']
  rfl

theorem read_loop_cons_read (len : Nat) (r : Int) (rs : List Int) (stream : List Nat)
    (st : rx_state) (h : st.avail < len) (hr : ¬ r < 0) :
    read_loop len (r :: rs) stream st =
      read_loop len rs
        (stream.drop (min (min r.toNat ((MAX_MAX_MSG_LEN + 2 ^ 64 - st.avail) % 2 ^ 64))
          stream.length))
        { st with
          avail := (st.avail + min (min r.toNat ((MAX_MAX_MSG_LEN + 2 ^ 64 - st.avail) % 2 ^ 64))
            stream.length) % 2 ^ 32
          buf := store st.buf st.avail
            (stream.take (min (min r.toNat ((MAX_MAX_MSG_LEN + 2 ^ 64 - st.avail) % 2 ^ 64))
              stream.length))
          rx_bytes := (st.rx_bytes + min (min r.toNat
            ((MAX_MAX_MSG_LEN + 2 ^ 64 - st.avail) % 2 ^ 64)) stream.length) % 2 ^ 64 } := by
  simp only [read_loop, h, hr, if_true, if_false]

theorem read_loop_spec (len : Nat) (hlen : len ≤ MAX_MAX_MSG_LEN) :
    ∀ (results : List Int) (stream : List Nat) (st : rx_state),
      st.buf.length = MAX_MAX_MSG_LEN → st.avail ≤ MAX_MAX_MSG_LEN →
      (∀ r ∈ results, (1 : Int) ≤ r) → len ≤ st.avail + results.length →
      len ≤ st.avail + stream.length →
      ∃ st1 ch1, read_loop len results stream st = .ok (st1, ch1) ∧
        st1.buf.length = MAX_MAX_MSG_LEN ∧ len ≤ st1.avail ∧ st1.avail ≤ MAX_MAX_MSG_LEN ∧
        st1.buf.take st1.avail ++ ch1.stream = st.buf.take st.avail ++ stream ∧
        st1.vs = st.vs ∧ (∀ r ∈ ch1.results, (1 : Int) ≤ r) ∧
        st.avail + results.length ≤ st1.avail + ch1.results.length ∧
        st1.avail + ch1.stream.length = st.avail + stream.length := by
  intro results
  induction results with
  | nil =>
    intro stream st hb ha _ hc _
    have : ¬ st.avail < len := by simp at hc; omega
    exact ⟨st, ⟨stream, []⟩, by simp [read_loop, this], hb, by omega, ha, rfl, rfl,
      by simp, le_refl _, rfl⟩
  | cons r rs ih =>
    intro stream st hb ha hres hc hs
    by_cases h : st.avail < len
    · have hr : (1 : Int) ≤ r := hres r (by simp)
      rw [read_loop_cons_read len r rs stream st h (by omega)]
      simp only [MAX_MAX_MSG_LEN] at hlen hb ha ⊢
      have hcount : (4096 + 2 ^ 64 - st.avail) % 2 ^ 64 = 4096 - st.avail := by omega
      rw [hcount]
      generalize hn : min (min r.toNat (4096 - st.avail)) stream.length = res
      have hres1 : 1 ≤ res := by omega
      have hres2 : res ≤ 4096 - st.avail := by omega
      have hres3 : res ≤ stream.length := by omega
      have hav : (st.avail + res) % 2 ^ 32 = st.avail + res := by omega
      rw [hav]
      have hdl : (stream.take res).length = res := by simp [hres3]
      obtain ⟨st1, ch1, hrun, c1, c2, c3, c4, c5, c6, c7, c8⟩ :=
        ih (stream.drop res)
          { st with avail := st.avail + res, buf := store st.buf st.avail (stream.take res),
                    rx_bytes := (st.rx_bytes + res) % 2 ^ 64 }
          (by simp only [MAX_MAX_MSG_LEN]; rw [store_length _ _ _ (by omega)]; exact hb)
          (by simp only [MAX_MAX_MSG_LEN]; omega)
          (fun x hx => hres x (List.mem_cons_of_mem _ hx))
          (by simp only [List.length_cons] at hc; simp only; omega)
          (by simp only [List.length_drop]; omega)
      refine ⟨st1, ch1, hrun, c1, c2, c3, ?_, c5, c6, ?_, ?_⟩
      · rw [c4]
        simp only
        have := store_take st.buf st.avail (stream.take res) (by omega)
        rw [hdl] at this
        rw [this, List.append_assoc, List.take_append_drop]
      · simp only [List.length_cons] at c7 ⊢
        omega
      · simp only [List.length_drop] at c8
        omega
    · exact ⟨st, ⟨stream, r :: rs⟩, by simp [read_loop, h], hb, by omega, ha, rfl, rfl,
        hres, le_refl _, rfl⟩

theorem receive_iter_spec (opt_master opt_chain : Bool) (m : msg) (st : rx_state) (ch : channel)
    (stream0 : List Nat) (pos : Nat)
    (hm1 : 1 ≤ m.len) (hm2 : m.len ≤ MAX_MAX_MSG_LEN)
    (hb : st.buf.length = MAX_MAX_MSG_LEN) (ha : st.avail ≤ MAX_MAX_MSG_LEN)
    (hres : ∀ r ∈ ch.results, (1 : Int) ≤ r)
    (hc : m.len ≤ st.avail + ch.results.length) (hs : m.len ≤ st.avail + ch.stream.length)
    (hin : st.buf.take st.avail ++ ch.stream = stream0.drop pos) :
    ∃ st1 ch1, read_loop m.len ch.results ch.stream st = .ok (st1, ch1) ∧
      st1.avail ≤ MAX_MAX_MSG_LEN ∧ st1.buf.take m.len = (stream0.drop pos).take m.len ∧
      msg_verify st1.vs m st1.buf = msg_verify st.vs m ((stream0.drop pos).take m.len) ∧
      ((msg_verify st.vs m ((stream0.drop pos).take m.len)).1 = false →
        receive_iter opt_master opt_chain m st ch = .error .data_mismatch) ∧
      ((msg_verify st.vs m ((stream0.drop pos).take m.len)).1 = true →
        ∃ st2, receive_iter opt_master opt_chain m st ch =
            .ok (st2, ch1, if !opt_master && opt_chain
              then some (msg_inc (msg_verify st.vs m ((stream0.drop pos).take m.len)).2.1)
              else none) ∧
          st2.vs = (msg_verify st.vs m ((stream0.drop pos).take m.len)).2.2 ∧
          st2.buf.length = MAX_MAX_MSG_LEN ∧ st2.avail ≤ MAX_MAX_MSG_LEN ∧
          st2.buf.take st2.avail ++ ch1.stream = stream0.drop (pos + m.len) ∧
          (∀ r ∈ ch1.results, (1 : Int) ≤ r) ∧
          st.avail + ch.results.length ≤ st2.avail + m.len + ch1.results.length ∧
          st2.avail + ch1.stream.length + m.len = st.avail + ch.stream.length) := by
  obtain ⟨st1, ch1, hrun, c1, c2, c3, c4, c5, c6, c7, c8⟩ :=
    read_loop_spec m.len hm2 ch.results ch.stream st hb ha hres hc hs
  have htake : st1.buf.take m.len = (stream0.drop pos).take m.len := by
    rw [← hin, ← c4, List.take_append_of_le_length (by simp; omega), List.take_take]
    congr 1
    omega
  have hv : msg_verify st1.vs m st1.buf = msg_verify st.vs m ((stream0.drop pos).take m.len) := by
    rw [← htake, msg_verify_take _ _ _ hm1, c5]
  refine ⟨st1, ch1, hrun, c3, htake, hv, ?_, ?_⟩
  · intro hf
    simp only [receive_iter, hrun, hv, hf, Bool.not_false, if_true]
  · intro ht
    simp only [MAX_MAX_MSG_LEN] at c1 c3 hm2 ⊢
    have hav : (st1.avail + 2 ^ 32 - m.len) % 2 ^ 32 = st1.avail - m.len := by omega
    have hdata : ((st1.buf.drop m.len).take (st1.avail - m.len)).length = st1.avail - m.len := by
      simp only [List.length_take, List.length_drop]
      omega
    have hfront : (if st1.avail - m.len > 0
          then store st1.buf 0 ((st1.buf.drop m.len).take (st1.avail - m.len))
          else st1.buf).take (st1.avail - m.len)
        = (st1.buf.drop m.len).take (st1.avail - m.len) := by
      by_cases h0 : st1.avail - m.len > 0
      · simp only [h0, if_true]
        have := store_take st1.buf 0 ((st1.buf.drop m.len).take (st1.avail - m.len))
          (by rw [hdata]; omega)
        rw [hdata] at this
        simpa using this
      · have : st1.avail - m.len = 0 := by omega
        simp [this]
    have hlen2 : (if st1.avail - m.len > 0
          then store st1.buf 0 ((st1.buf.drop m.len).take (st1.avail - m.len))
          else st1.buf).length = 4096 := by
      split
      · rw [store_length _ _ _ (by rw [hdata]; omega)]
        exact c1
      · exact c1
    refine ⟨{ avail := st1.avail - m.len
              buf := if st1.avail - m.len > 0
                then store st1.buf 0 ((st1.buf.drop m.len).take (st1.avail - m.len))
                else st1.buf
              rx_bytes := st1.rx_bytes
              vs := (msg_verify st.vs m ((stream0.drop pos).take m.len)).2.2 }, ?_, rfl, hlen2,
            by simp only; omega, ?_, c6, by simp only; omega, by simp only; omega⟩
    · simp only [receive_iter, hrun, hv, ht, Bool.not_true, Bool.false_eq_true, if_false, hav]
      split <;> rfl
    · simp only
      rw [hfront, ← List.drop_take, ← List.drop_append_of_le_length (by simp; omega), c4, hin,
        List.drop_drop]

theorem receive_start_frames (opt_master opt_chain : Bool) (stream0 : List Nat) :
    ∀ (n : Nat) (msgs : List msg) (st : rx_state) (ch : channel) (pos : Nat),
      n ≤ msgs.length →
      (∀ m ∈ msgs, 1 ≤ m.len ∧ m.len ≤ MAX_MAX_MSG_LEN) →
      st.buf.length = MAX_MAX_MSG_LEN → st.avail ≤ MAX_MAX_MSG_LEN →
      (∀ r ∈ ch.results, (1 : Int) ≤ r) →
      (msgs.map msg.len).sum ≤ st.avail + ch.results.length →
      (msgs.map msg.len).sum ≤ st.avail + ch.stream.length →
      st.buf.take st.avail ++ ch.stream = stream0.drop pos →
      (∀ e, verify_frames opt_master opt_chain stream0 (msgs.take n) st.vs pos = .error e →
        receive_start opt_master opt_chain list_source n msgs st ch = .error e) ∧
      (∀ vs pos1 out,
        verify_frames opt_master opt_chain stream0 (msgs.take n) st.vs pos = .ok (vs, pos1, out) →
        ∃ st1 ch1, receive_start opt_master opt_chain list_source n msgs st ch
            = .ok (msgs.drop n, st1, ch1, out) ∧
          st1.vs = vs ∧ pos1 = pos + ((msgs.take n).map msg.len).sum ∧
          st1.buf.length = MAX_MAX_MSG_LEN ∧ st1.avail ≤ MAX_MAX_MSG_LEN ∧
          st1.buf.take st1.avail ++ ch1.stream = stream0.drop pos1 ∧
          (∀ r ∈ ch1.results, (1 : Int) ≤ r) ∧
          ((msgs.drop n).map msg.len).sum ≤ st1.avail + ch1.results.length ∧
          ((msgs.drop n).map msg.len).sum ≤ st1.avail + ch1.stream.length) := by
  intro n
  induction n with
  | zero =>
    intro msgs st ch pos _ _ hb ha hres hc hs hin
    refine ⟨by simp [verify_frames], ?_⟩
    intro vs pos1 out h
    simp only [List.take_zero, verify_frames, Except.ok.injEq, Prod.mk.injEq] at h
    obtain ⟨rfl, rfl, rfl⟩ := h
    exact ⟨st, ch, rfl, rfl, by simp, hb, ha, hin, hres, by simpa using hc, by simpa using hs⟩
  | succ n ih =>
    intro msgs st ch pos hn hmsgs hb ha hres hc hs hin
    cases msgs with
    | nil => simp at hn
    | cons m ms =>
      have hm := hmsgs m (by simp)
      simp only [List.map_cons, List.sum_cons] at hc hs
      obtain ⟨st1, ch1, _, _, _, _, hfalse, htrue⟩ :=
        receive_iter_spec opt_master opt_chain m st ch stream0 pos hm.1 hm.2 hb ha hres
          (by omega) (by omega) hin
      simp only [List.take_succ_cons, verify_frames, List.drop_succ_cons]
      cases hv : (msg_verify st.vs m ((stream0.drop pos).take m.len)).1 with
      | false =>
        have hit := hfalse hv
        simp [receive_start, list_source, hit]
      | true =>
        obtain ⟨st2, hit, d1, d2, d3, d4, d5, d6, d7⟩ := htrue hv
        obtain ⟨ihe, iho⟩ := ih ms st2 ch1 (pos + m.len) (by simpa using hn)
          (fun x hx => hmsgs x (List.mem_cons_of_mem _ hx)) d2 d3 d5 (by omega) (by omega) d4
        rw [d1] at ihe iho
        simp only [Bool.not_true, Bool.false_eq_true, if_false]
        constructor
        · intro e he
          cases hvf : verify_frames opt_master opt_chain stream0 (ms.take n)
              (msg_verify st.vs m ((stream0.drop pos).take m.len)).2.2 (pos + m.len) with
          | error e2 =>
            rw [hvf] at he
            simp only [Except.error.injEq] at he
            subst he
            simp [receive_start, list_source, hit, ihe e2 hvf]
          | ok r =>
            rw [hvf] at he
            simp at he
        · intro vs pos1 out ho
          cases hvf : verify_frames opt_master opt_chain stream0 (ms.take n)
              (msg_verify st.vs m ((stream0.drop pos).take m.len)).2.2 (pos + m.len) with
          | error e2 =>
            rw [hvf] at ho
            simp at ho
          | ok r =>
            rw [hvf] at ho
            simp only [Except.ok.injEq, Prod.mk.injEq] at ho
            obtain ⟨rfl, rfl, rfl⟩ := ho
            obtain ⟨st3, ch3, hrun, e1, e2, e3, e4, e5, e6, e7, e8⟩ := iho r.1 r.2.1 r.2.2 hvf
            refine ⟨st3, ch3, ?_, e1, ?_, e3, e4, e5, e6, e7, e8⟩
            · simp only [receive_start, list_source, hit, hrun]
              cases opt_master <;> cases opt_chain <;> rfl
            · rw [e2]
              simp only [List.map_cons, List.sum_cons]
              omega

theorem gen_bytes_length {S : Type} (P : prng_ops S) :
    ∀ (n : Nat) (s : S), (gen_bytes P n s).1.length = n := by
  intro n
  induction n with
  | zero => intro s; rfl
  | succ n ih => intro s; simp [gen_bytes, ih]

theorem msg_verify_own_payload (n0 : Nat) (m : msg) (hwf : m.buf.length = m.len) :
    msg_verify ⟨true, n0⟩ m m.buf = (true, m, ⟨false, 0⟩) := by
  have hmemcmp : memcmp m.buf m.buf m.len = 0 := by
    rw [memcmp_eq_zero_take]
    exact ⟨by omega, by omega, rfl⟩
  simp [msg_verify, hmemcmp]

theorem slave_first_iteration {S : Type} (P : prng_ops S)
    (hrange : ∀ s lo hi, lo ≤ hi → lo ≤ (P.range s lo hi).1 ∧ (P.range s lo hi).1 ≤ hi)
    (opt_msglen : Nat) (h1 : 1 ≤ opt_msglen) (h2 : opt_msglen ≤ MAX_MAX_MSG_LEN)
    (seed : S) (t_master t_slave : Nat) (res : Int) (tx tx1 : Nat) (wire : List Nat)
    (kept : Option msg)
    (htx : transmit_iter true true (msg_gen P t_master (neg_msglen opt_msglen) seed).1 res tx
      = .ok (wire, tx1, kept))
    (more : List Nat) (results : List Int) (hres : ∀ r ∈ results, (1 : Int) ≤ r)
    (hcount : wire.length ≤ results.length) :
    ∃ s1 st1 ch1 fwd,
      receive_start false true (gen_source P t_slave opt_msglen) 1 seed rx_init
          { stream := wire ++ more, results := results } = .ok (s1, st1, ch1, [fwd]) ∧
      st1.vs = ⟨false, 0⟩ ∧ fwd.buf = wire.map (fun b => (b + 1) % 256) := by
  simp only [MAX_MAX_MSG_LEN] at h2
  have hneg : neg_msglen opt_msglen = -(opt_msglen : Int) := by
    simp only [neg_msglen]
    split <;> omega
  have hlt : -(opt_msglen : Int) < 0 := by omega
  obtain ⟨r1, r2⟩ := hrange seed 1 (opt_msglen : Int) (by omega)
  -- the master's message and the slave's expected message
  have hgen : ∀ t, msg_gen P t (neg_msglen opt_msglen) seed
      = ({ stamp := t, next := none, len := (P.range seed 1 opt_msglen).1.toNat,
           buf := (gen_bytes P (P.range seed 1 opt_msglen).1.toNat
             (P.range seed 1 opt_msglen).2).1 },
         (gen_bytes P (P.range seed 1 opt_msglen).1.toNat (P.range seed 1 opt_msglen).2).2) := by
    intro t
    simp [msg_gen, hneg, hlt]
  generalize hlen : (P.range seed 1 opt_msglen).1.toNat = len at hgen
  generalize hpay : (gen_bytes P len (P.range seed 1 opt_msglen).2) = g at hgen
  have hglen : g.1.length = len := by rw [← hpay, gen_bytes_length]
  have hl1 : 1 ≤ len := by omega
  have hl2 : len ≤ 4096 := by omega
  have hwire : wire = g.1 := by
    rw [hgen] at htx
    simp only [transmit_iter] at htx
    split at htx
    · simp at htx
    · split at htx
      · simp at htx
      · rename_i hh1 hh2
        simp only [Except.ok.injEq, Prod.mk.injEq] at htx
        rw [← htx.1]
        apply List.take_of_length_le
        omega
  subst hwire
  obtain ⟨st1, ch1, _, _, _, _, _, htrue⟩ :=
    receive_iter_spec false true
      { stamp := t_slave, next := none, len := len, buf := g.1 } rx_init
      { stream := g.1 ++ more, results := results } (g.1 ++ more) 0 hl1
      (by simpa [MAX_MAX_MSG_LEN] using hl2) (by simp [rx_init])
      (by simp [rx_init]) hres (by simp only [rx_init]; omega)
      (by simp only [rx_init, List.length_append]; omega) (by simp [rx_init])
  have hslice : ((g.1 ++ more).drop 0).take len = g.1 := by
    simp only [List.drop_zero]
    exact List.take_left' hglen
  simp only [hslice] at htrue
  have hv := msg_verify_own_payload 0 { stamp := t_slave, next := none, len := len, buf := g.1 }
    hglen
  simp only [rx_init] at htrue
  rw [hv] at htrue
  obtain ⟨st2, hit, d1, _⟩ := htrue rfl
  refine ⟨g.2, st2, ch1, msg_inc { stamp := t_slave, next := none, len := len, buf := g.1 },
    ?_, d1, ?_⟩
  · simp only [receive_start, gen_source, hgen, rx_init, hit]
    rfl
  · simp only [msg_inc]
    rw [add_bytes_eq_map _ _ _ (by omega)]

theorem lcg_prng_range (s : Nat) (lo hi : Int) (h : lo ≤ hi) :
    lo ≤ (lcg_prng.range s lo hi).1 ∧ (lcg_prng.range s lo hi).1 ≤ hi := by
  simp only [lcg_prng]
  have h1 := Int.emod_nonneg (s : Int) (by omega : hi - lo + 1 ≠ 0)
  have h2 := Int.emod_lt_of_pos (s : Int) (by omega : 0 < hi - lo + 1)
  omega

/-- C6, as stated, fails: with libbrahe's generator replaced by a stand-in, seed 42 and maximum
length 8, the master sends its first message (3 bytes) and the slave, reading exactly these
bytes, runs its first iteration successfully with `numslaves = 0`, not 1. -/
theorem slave_first_verify_counterexample :
    ∃ wire tx1 kept s1 st1 ch1 fwd,
      transmit_iter true true (msg_gen lcg_prng 0 (neg_msglen 8) 42).1 3 0
        = .ok (wire, tx1, kept) ∧
      receive_start false true (gen_source lcg_prng 0 8) 1 42 rx_init
          { stream := wire ++ [], results := [1, 1, 1] } = .ok (s1, st1, ch1, [fwd]) ∧
      st1.vs.numslaves = 0 ∧ st1.vs.numslaves ≠ 1 := by
  have htx : transmit_iter true true (msg_gen lcg_prng 0 (neg_msglen 8) 42).1 3 0
      = .ok ([27, 184, 145], 3, some (msg_gen lcg_prng 0 (neg_msglen 8) 42).1) := rfl
  obtain ⟨s1, st1, ch1, fwd, hrun, hvs, _⟩ :=
    slave_first_iteration lcg_prng lcg_prng_range 8 (by decide) (by decide) 42 0 0 3 0 3
      [27, 184, 145] _ htx [] [1, 1, 1] (by decide) (by decide)
  exact ⟨_, _, _, s1, st1, ch1, fwd, htx, hrun, by rw [hvs], by rw [hvs]; decide⟩

/-- C6 (amended): in a two-node chain (a master and one relaying slave started with the same
seed and maximum length, the slave reading the master's transmitted bytes unmodified), the
slave's first iteration returns, its first `msg_verify` call detects chain offset 0 (slave
order 0), and the message it hands to `msg_add` is the master's payload with every byte
incremented. -/
theorem slave_first_verify_offset {S : Type} (P : prng_ops S)
    (hrange : ∀ s lo hi, lo ≤ hi → lo ≤ (P.range s lo hi).1 ∧ (P.range s lo hi).1 ≤ hi)
    (opt_msglen : Nat) (h1 : 1 ≤ opt_msglen) (h2 : opt_msglen ≤ MAX_MAX_MSG_LEN)
    (seed : S) (t_master t_slave : Nat) (res : Int) (tx tx1 : Nat) (wire : List Nat)
    (kept : Option msg)
    (htx : transmit_iter true true (msg_gen P t_master (neg_msglen opt_msglen) seed).1 res tx
      = .ok (wire, tx1, kept))
    (more : List Nat) (results : List Int) (hres : ∀ r ∈ results, (1 : Int) ≤ r)
    (hcount : wire.length ≤ results.length) :
    ∃ s1 st1 ch1 fwd,
      receive_start false true (gen_source P t_slave opt_msglen) 1 seed rx_init
          { stream := wire ++ more, results := results } = .ok (s1, st1, ch1, [fwd]) ∧
      st1.vs = ⟨false, 0⟩ ∧ fwd.buf = wire.map (fun b => (b + 1) % 256) :=
  slave_first_iteration P hrange opt_msglen h1 h2 seed t_master t_slave res tx tx1 wire kept htx
    more results hres hcount

theorem slave_first_verify_offset_witness :
    ∃ s1 st1 ch1 fwd,
      receive_start false true (gen_source lcg_prng 7 8) 1 42 rx_init
          { stream := [27, 184, 145] ++ [99, 98], results := [2, 4096, 1] }
        = .ok (s1, st1, ch1, [fwd]) ∧
      st1.vs = ⟨false, 0⟩ ∧ fwd.buf = [27, 184, 145].map (fun b => (b + 1) % 256) :=
  slave_first_verify_offset lcg_prng lcg_prng_range 8 (by decide) (by decide) 42 5 7 3 0 3
    [27, 184, 145] (some (msg_gen lcg_prng 5 (neg_msglen 8) 42).1) rfl [99, 98]
    [2, 4096, 1] (by decide) (by decide)

/-- C9: receive framing does not depend on how `read` chunks the input. For every sequence of
expected messages with lengths between 1 and MAX_MAX_MSG_LEN and every schedule of reads that
each return at least one byte (and as many reads and bytes as the messages need), starting with
an empty staging buffer: (1) the loop fails with a data mismatch exactly when verifying each
message k against the stream bytes `[s_k, s_k + len_k)`, `s_k` the sum of the earlier lengths,
fails; (2) otherwise it completes all iterations with the same verifier state and forwarded
messages, `avail` within the buffer capacity, and the bytes read beyond the last message kept
in order at the front of the staging buffer; (3) after any k successful iterations `avail` is
within capacity, the staging buffer front followed by the unread stream is the stream from
`s_k` on, and the read loop for message k returns with the first `len_k` buffer bytes equal to
the stream bytes `[s_k, s_k + len_k)`, which is what `msg_verify` is called on. -/
theorem receive_framing (opt_master opt_chain : Bool) (msgs : List msg) (st : rx_state)
    (ch : channel)
    (hmsgs : ∀ m ∈ msgs, 1 ≤ m.len ∧ m.len ≤ MAX_MAX_MSG_LEN)
    (hbuf : st.buf.length = MAX_MAX_MSG_LEN) (havail : st.avail = 0)
    (hres : ∀ r ∈ ch.results, (1 : Int) ≤ r)
    (hcount : (msgs.map msg.len).sum ≤ ch.results.length)
    (hstream : (msgs.map msg.len).sum ≤ ch.stream.length) :
    (∀ e, verify_frames opt_master opt_chain ch.stream msgs st.vs 0 = .error e →
      receive_start opt_master opt_chain list_source msgs.length msgs st ch = .error e) ∧
    (∀ vs pos out, verify_frames opt_master opt_chain ch.stream msgs st.vs 0 = .ok (vs, pos, out) →
      ∃ st1 ch1, receive_start opt_master opt_chain list_source msgs.length msgs st ch
          = .ok ([], st1, ch1, out) ∧
        st1.vs = vs ∧ pos = (msgs.map msg.len).sum ∧ st1.avail ≤ MAX_MAX_MSG_LEN ∧
        st1.buf.take st1.avail ++ ch1.stream = ch.stream.drop pos) ∧
    (∀ (k : Nat) (hk : k < msgs.length) (src : List msg) (stk : rx_state) (chk : channel)
        (out : List msg),
      receive_start opt_master opt_chain list_source k msgs st ch = .ok (src, stk, chk, out) →
      stk.avail ≤ MAX_MAX_MSG_LEN ∧
      stk.buf.take stk.avail ++ chk.stream = ch.stream.drop ((msgs.take k).map msg.len).sum ∧
      ∃ st1 ch1, read_loop (msgs[k]).len chk.results chk.stream stk = .ok (st1, ch1) ∧
        st1.avail ≤ MAX_MAX_MSG_LEN ∧
        st1.buf.take (msgs[k]).len
          = (ch.stream.drop ((msgs.take k).map msg.len).sum).take (msgs[k]).len ∧
        msg_verify st1.vs msgs[k] st1.buf
          = msg_verify stk.vs msgs[k]
              ((ch.stream.drop ((msgs.take k).map msg.len).sum).take (msgs[k]).len)) := by
  have hin : st.buf.take st.avail ++ ch.stream = ch.stream.drop 0 := by simp [havail]
  have main := fun n hn => receive_start_frames opt_master opt_chain ch.stream n msgs st ch 0 hn
    hmsgs hbuf (by omega) hres (by omega) (by omega) hin
  refine ⟨?_, ?_, ?_⟩
  · intro e he
    have := (main msgs.length (le_refl _)).1 e
    rw [List.take_length] at this
    exact this he
  · intro vs pos out ho
    have := (main msgs.length (le_refl _)).2 vs pos out
    rw [List.take_length, List.drop_length] at this
    obtain ⟨st1, ch1, hrun, e1, e2, _, e4, e5, _⟩ := this ho
    exact ⟨st1, ch1, hrun, e1, by simpa using e2, e4, e5⟩
  · intro k hk src stk chk out hrun
    obtain ⟨me, mo⟩ := main k (le_of_lt hk)
    cases hvf : verify_frames opt_master opt_chain ch.stream (msgs.take k) st.vs 0 with
    | error e =>
      rw [me e hvf] at hrun
      simp at hrun
    | ok r =>
      obtain ⟨st1, ch1, hrun1, _, e2, e3, e4, e5, e6, e7, e8⟩ := mo r.1 r.2.1 r.2.2 hvf
      rw [hrun1] at hrun
      simp only [Except.ok.injEq, Prod.mk.injEq] at hrun
      obtain ⟨_, rfl, rfl, _⟩ := hrun
      simp only [Nat.zero_add] at e2
      rw [e2] at e5
      have hdrop : msgs.drop k = msgs[k] :: msgs.drop (k + 1) := List.drop_eq_getElem_cons hk
      rw [hdrop] at e7 e8
      simp only [List.map_cons, List.sum_cons] at e7 e8
      have hm := hmsgs msgs[k] (List.getElem_mem _)
      obtain ⟨st2, ch2, f1, f2, f3, f4, _, _⟩ :=
        receive_iter_spec opt_master opt_chain msgs[k] st1 ch1 ch.stream
          ((msgs.take k).map msg.len).sum hm.1 hm.2 e3 e4 e6 (by omega) (by omega) e5
      exact ⟨e4, e5, st2, ch2, f1, f2, f3, f4⟩

theorem receive_framing_witness :
    (∀ e, verify_frames false true [1, 2, 3, 4] [⟨0, none, 2, [1, 2]⟩, ⟨0, none, 1, [3]⟩]
        rx_init.vs 0 = .error e →
      receive_start false true list_source
        [(⟨0, none, 2, [1, 2]⟩ : msg), ⟨0, none, 1, [3]⟩].length
        [⟨0, none, 2, [1, 2]⟩, ⟨0, none, 1, [3]⟩] rx_init ⟨[1, 2, 3, 4], [1, 5, 1]⟩
        = .error e) ∧
    (∀ vs pos out, verify_frames false true [1, 2, 3, 4]
        [⟨0, none, 2, [1, 2]⟩, ⟨0, none, 1, [3]⟩] rx_init.vs 0 = .ok (vs, pos, out) →
      ∃ st1 ch1, receive_start false true list_source
          [(⟨0, none, 2, [1, 2]⟩ : msg), ⟨0, none, 1, [3]⟩].length
          [⟨0, none, 2, [1, 2]⟩, ⟨0, none, 1, [3]⟩] rx_init ⟨[1, 2, 3, 4], [1, 5, 1]⟩
          = .ok ([], st1, ch1, out) ∧
        st1.vs = vs ∧
        pos = (([⟨0, none, 2, [1, 2]⟩, ⟨0, none, 1, [3]⟩] : List msg).map msg.len).sum ∧
        st1.avail ≤ MAX_MAX_MSG_LEN ∧
        st1.buf.take st1.avail ++ ch1.stream = ([1, 2, 3, 4] : List Nat).drop pos) :=
  ⟨(receive_framing false true [⟨0, none, 2, [1, 2]⟩, ⟨0, none, 1, [3]⟩] rx_init
      ⟨[1, 2, 3, 4], [1, 5, 1]⟩ (by decide) (by simp [rx_init]) rfl (by decide) (by decide)
      (by decide)).1,
   (receive_framing false true [⟨0, none, 2, [1, 2]⟩, ⟨0, none, 1, [3]⟩] rx_init
      ⟨[1, 2, 3, 4], [1, 5, 1]⟩ (by decide) (by simp [rx_init]) rfl (by decide) (by decide)
      (by decide)).2.1⟩

theorem read_loop_vs (len : Nat) : ∀ (results : List Int) (stream : List Nat)
    (st st1 : rx_state) (ch1 : channel),
    read_loop len results stream st = .ok (st1, ch1) → st1.vs = st.vs := by
  intro results
  induction results with
  | nil =>
    intro stream st st1 ch1 h
    simp only [read_loop] at h
    split at h
    · simp at h
    · simp only [Except.ok.injEq, Prod.mk.injEq] at h
      rw [← h.1]
  | cons r rs ih =>
    intro stream st st1 ch1 h
    simp only [read_loop] at h
    split at h
    · split at h
      · simp at h
      · have := ih _ _ _ _ h
        simpa using this
    · simp only [Except.ok.injEq, Prod.mk.injEq] at h
      rw [← h.1]

theorem receive_iter_vs (opt_master opt_chain : Bool) (m : msg) (st st2 : rx_state)
    (ch ch2 : channel) (fwd : Option msg) (hfirst : st.vs.first = false)
    (h : receive_iter opt_master opt_chain m st ch = .ok (st2, ch2, fwd)) : st2.vs = st.vs := by
  cases hrun : read_loop m.len ch.results ch.stream st with
  | error e => simp [receive_iter, hrun] at h
  | ok r =>
    have hvs := read_loop_vs m.len ch.results ch.stream st r.1 r.2 hrun
    have hlater := msg_verify_later r.1.vs (by rw [hvs]; exact hfirst) m r.1.buf
    simp only [receive_iter, hrun] at h
    split at h
    · simp at h
    · split at h <;>
      · simp only [Except.ok.injEq, Prod.mk.injEq] at h
        rw [← h.1]
        simp only
        rw [hlater, hvs]

theorem receive_start_vs {σ : Type} (opt_master opt_chain : Bool)
    (next_msg : σ → Except Stop (msg × σ)) :
    ∀ (n : Nat) (src src1 : σ) (st st1 : rx_state) (ch ch1 : channel) (out : List msg),
      st.vs.first = false →
      receive_start opt_master opt_chain next_msg n src st ch = .ok (src1, st1, ch1, out) →
      st1.vs = st.vs := by
  intro n
  induction n with
  | zero =>
    intro src src1 st st1 ch ch1 out _ h
    simp only [receive_start, Except.ok.injEq, Prod.mk.injEq] at h
    rw [← h.2.1]
  | succ n ih =>
    intro src src1 st st1 ch ch1 out hfirst h
    simp only [receive_start] at h
    cases hg : next_msg src with
    | error e => simp [hg] at h
    | ok g =>
      simp only [hg] at h
      cases hit : receive_iter opt_master opt_chain g.1 st ch with
      | error e => simp [hit] at h
      | ok r =>
        simp only [hit] at h
        have hvs := receive_iter_vs opt_master opt_chain g.1 st r.1 ch r.2.1 r.2.2 hfirst hit
        cases hrest : receive_start opt_master opt_chain next_msg n g.2 r.1 r.2.1 with
        | error e => simp [hrest] at h
        | ok r2 =>
          simp only [hrest, Except.ok.injEq, Prod.mk.injEq] at h
          have := ih g.2 r2.1 r.1 r2.2.1 r.2.1 r2.2.2.1 r2.2.2.2 (by rw [hvs]; exact hfirst) hrest
          rw [← h.2.1, this, hvs]

/-- C7: `numslaves` is written by the first `msg_verify` call of a run only. That call sets it
to `(buf[0] - expected.buf[0]) mod 256`, the byte `k` with `expected.buf[0] + k = buf[0]`
mod 256, and clears the first-call flag; every later call, whatever message and buffer it
gets and whatever it returns, leaves the flag and `numslaves` as they are. So after any
further calls, and after any number of further iterations of `receive_start`, `numslaves`
still holds the value of the first call. -/
theorem numslaves_set_once (n0 : Nat) (m : msg) (buf : List Nat)
    (later : List (msg × List Nat)) :
    (msg_verify ⟨true, n0⟩ m buf).2.2
        = ⟨false, ((((buf.getD 0 0 : Nat) : Int) - ((m.buf.getD 0 0 : Nat) : Int)) % 256).toNat⟩ ∧
    ((msg_verify ⟨true, n0⟩ m buf).2.2.numslaves < 256 ∧
      (m.buf.getD 0 0 + (msg_verify ⟨true, n0⟩ m buf).2.2.numslaves) % 256
        = buf.getD 0 0 % 256) ∧
    (∀ (k : Nat) (m2 : msg) (buf2 : List Nat),
      (msg_verify ⟨false, k⟩ m2 buf2).2.2 = ⟨false, k⟩) ∧
    verify_run ⟨true, n0⟩ ((m, buf) :: later) = (msg_verify ⟨true, n0⟩ m buf).2.2 ∧
    (∀ (opt_master opt_chain : Bool) (msgs rest : List msg) (n : Nat) (st st1 : rx_state)
        (ch ch1 : channel) (out : List msg),
      st.vs.first = false →
      receive_start opt_master opt_chain list_source n msgs st ch = .ok (rest, st1, ch1, out) →
      st1.vs = st.vs) := by
  have h1 : (msg_verify ⟨true, n0⟩ m buf).2.2
      = ⟨false, ((((buf.getD 0 0 : Nat) : Int) - ((m.buf.getD 0 0 : Nat) : Int)) % 256).toNat⟩ := by
    simp [msg_verify]
  refine ⟨h1, ?_, fun k m2 buf2 => msg_verify_later ⟨false, k⟩ rfl m2 buf2, ?_, ?_⟩
  · rw [h1]
    simp only
    omega
  · simp only [verify_run]
    exact verify_run_later later _ (by rw [h1])
  · intro opt_master opt_chain msgs rest n st st1 ch ch1 out hfirst hrun
    exact receive_start_vs opt_master opt_chain list_source n msgs rest st st1 ch ch1 out
      hfirst hrun

end Sertest
